import Mathlib

/-!
Verification of the residue-renumbering engine of `src/boltz2/renumber.py`.

The whole development is a shallow embedding over `List Char`: a Python `str`
is modelled as a `List Char` (type alias `Line`), Python `int(...)` as
`pyInt`, Python `str(int)` as `pyStr`, and Python `f"{n:4d}"` as `pad4`.
Every definition mirrors the corresponding Python function; source line
numbers are given in the doc comments.
-/

set_option maxHeartbeats 1000000

/-- A Python string, modelled as a list of characters. -/
abbrev Line := List Char

/-- ASCII whitespace as stripped by Python's `str.strip()` / `int()`
(restricted to the ASCII whitespace characters). -/
def isPySpace (c : Char) : Bool :=
  c = ' ' || c = '\t' || c = '\n' || c = '\x0d' || c = '\x0b' || c = '\x0c'

/-- Python `str.strip()`: remove leading and trailing whitespace. -/
def pyStrip (l : Line) : Line :=
  ((l.dropWhile isPySpace).reverse.dropWhile isPySpace).reverse

/-- Numeric value of a decimal digit character. -/
def digitVal (c : Char) : Nat := c.toNat - 48

/-- Digit-run parser for Python `int()`: consumes decimal digits, allowing a
single underscore between two digits (as Python does); any other character,
a trailing underscore, or a doubled underscore is a parse error. -/
def pyDigitsAux : Nat → List Char → Option Nat
  | acc, [] => some acc
  | acc, c :: cs =>
    if c.isDigit then pyDigitsAux (10 * acc + digitVal c) cs
    else if c = '_' then
      match cs with
      | [] => none
      | d :: rest => if d.isDigit then pyDigitsAux (10 * acc + digitVal d) rest else none
    else none

/-- Unsigned decimal parser for Python `int()`: nonempty, must start with a
digit (a leading underscore is rejected). -/
def pyNat : List Char → Option Nat
  | [] => none
  | c :: cs => if c.isDigit then pyDigitsAux 0 (c :: cs) else none

/-- Core of Python `int(str)` after whitespace stripping: optional sign then
digits. -/
def pyIntCore : Line → Option Int
  | [] => none
  | c :: cs =>
    if c = '+' then (pyNat cs).map Int.ofNat
    else if c = '-' then (pyNat cs).map (fun n => -(Int.ofNat n))
    else (pyNat (c :: cs)).map Int.ofNat

/-- Python `int(str)`: strip whitespace, optional sign, decimal digits;
`none` models the `ValueError` raised on malformed input. -/
def pyInt (l : Line) : Option Int := pyIntCore (pyStrip l)

/-- Fuel-driven decimal rendering of a natural number (most significant digit
first); the fuel argument only bounds the recursion and is irrelevant once it
exceeds the number of digits. -/
def natCharsAux : Nat → Nat → List Char → List Char
  | 0, _, acc => acc
  | fuel + 1, n, acc =>
    if n < 10 then Char.ofNat (48 + n) :: acc
    else natCharsAux fuel (n / 10) (Char.ofNat (48 + n % 10) :: acc)

/-- Decimal representation of a natural number, e.g. `natChars 15 = ['1','5']`. -/
def natChars (n : Nat) : List Char := natCharsAux (n + 1) n []

/-- Python `str(int)`: minimal decimal representation with a leading `-` for
negative numbers. -/
def pyStr : Int → Line
  | Int.ofNat n => natChars n
  | Int.negSucc m => '-' :: natChars (m + 1)

/-- Python `f"{n:4d}"`: the decimal representation right-justified in a field
of (at least) four characters, padded with spaces. -/
def pad4 (i : Int) : Line := List.replicate (4 - (pyStr i).length) ' ' ++ pyStr i

/-- The numeric rewrite shared by every renumbering site of
`renumber.py` (lines 246-249, 255-258, 296-298, 320-322, 356-357): parse the
old field with Python `int`, add `start_residue - 1`, render with `str`.
`none` models the swallowed `ValueError`. -/
def shiftNumStr (start_residue : Int) (v : Line) : Option Line :=
  (pyInt v).map (fun old => pyStr (old + start_residue - 1))

/-- Characters treated as field separators by `find_field_positions`
(`renumber.py` line 42: `line[i] in " \t"`). -/
def isBlank (c : Char) : Bool := c = ' ' || c = '\t'

/-- Quote characters recognised by `find_field_positions`
(`renumber.py` line 51: `line[i] in "\"'"`). -/
def isQuote (c : Char) : Bool := c = '"' || c = Char.ofNat 39

/-- `find_field_positions` (`renumber.py` lines 22-67), fuel-driven scan:
`pos` is the absolute offset of the head of the remaining character list.
Whitespace runs are skipped; a quoted field extends to the matching quote
(inclusive) or the end of the line; a regular field extends to the next
blank.  Each result triple is `(start, end, value)`. -/
def findFieldsAux : Nat → Nat → List Char → List (Nat × Nat × Line)
  | 0, _, _ => []
  | _ + 1, _, [] => []
  | fuel + 1, pos, c :: cs =>
    if isBlank c then findFieldsAux fuel (pos + 1) cs
    else if isQuote c then
      let body := cs.takeWhile (fun d => d != c)
      match cs.dropWhile (fun d => d != c) with
      | [] => [(pos, pos + 1 + body.length, c :: body)]
      | q :: rest =>
        (pos, pos + 2 + body.length, c :: (body ++ [q])) ::
          findFieldsAux fuel (pos + 2 + body.length) rest
    else
      let tok := (c :: cs).takeWhile (fun d => !(isBlank d))
      (pos, pos + tok.length, tok) ::
        findFieldsAux fuel (pos + tok.length) ((c :: cs).dropWhile (fun d => !(isBlank d)))

/-- `find_field_positions(line)` (`renumber.py` lines 22-67). -/
def find_field_positions (line : Line) : List (Nat × Nat × Line) :=
  findFieldsAux (line.length + 1) 0 line

/-- The values of the fields of a line
(`parts = [f[2] for f in fields]`, `renumber.py` line 207). -/
def fieldValues (line : Line) : List Line :=
  (find_field_positions line).map (fun t => t.2.2)

/-- `replace_field_preserve_format` (`renumber.py` lines 70-92): replace the
`field_idx`-th field's span with `new_value`; out-of-range index returns the
line unchanged. -/
def replace_field_preserve_format (line : Line) (field_idx : Nat) (new_value : Line) : Line :=
  match (find_field_positions line).get? field_idx with
  | none => line
  | some (start, stop, _) => line.take start ++ new_value ++ line.drop stop

/-- First phase of `str.splitlines()`: collapse each `\r\n` pair into `\n`. -/
def normEOL : List Char → List Char
  | [] => []
  | '\x0d' :: '\n' :: cs => '\n' :: normEOL cs
  | c :: cs => c :: normEOL cs

/-- Second phase of `str.splitlines()`: split on single `\n` / `\r`
terminators; a terminator ends a line and a final unterminated segment forms
a last line only when nonempty.  `acc` holds the current line reversed. -/
def pySplitlinesAux : List Char → List Char → List (List Char)
  | acc, [] => if acc.isEmpty then [] else [acc.reverse]
  | acc, c :: cs =>
    if c = '\n' || c = '\x0d' then acc.reverse :: pySplitlinesAux [] cs
    else pySplitlinesAux (c :: acc) cs

/-- Python `str.splitlines()` restricted to the `\n`, `\r\n` and `\r` line
terminators (the forms relevant to this repository). -/
def pySplitlines (t : List Char) : List (List Char) :=
  pySplitlinesAux [] (normEOL t)

/-- `"\n".join(output_lines)` (`renumber.py` lines 368 and 424). -/
def joinNL : List Line → Line
  | [] => []
  | [l] => l
  | l :: l' :: ls => l ++ '\n' :: joinNL (l' :: ls)

/-! ### String constants of `renumber.py`, as character lists -/

def groupPDBL : Line := "group_PDB".toList
def labelSeqL : Line := "label_seq_id".toList
def authSeqL : Line := "auth_seq_id".toList
def labelAsymL : Line := "label_asym_id".toList
def asymIdL : Line := "asym_id".toList
def seqIdL : Line := "seq_id".toList
def pdbSeqNumL : Line := "pdb_seq_num".toList
def authSeqNumL : Line := "auth_seq_num".toList
def numColL : Line := "num".toList
def hetatmL : Line := "HETATM".toList
def dotL : Line := ".".toList
def qMarkL : Line := "?".toList
def atomSiteDotL : Line := "_atom_site.".toList
def polySeqDotL : Line := "_pdbx_poly_seq_scheme.".toList
def entityDotL : Line := "_entity_poly_seq.".toList
def maQaDotL : Line := "_ma_qa_metric_local.".toList
def sharpL : Line := "#".toList
def loopTagL : Line := "loop_".toList
def underscoreL : Line := "_".toList
def atomTagL : Line := "ATOM".toList
def terTagL : Line := "TER".toList
def anisouTagL : Line := "ANISOU".toList
def headerTagL : Line := "HEADER".toList
def titleTagL : Line := "TITLE".toList
def remarkTagL : Line := "REMARK".toList
def crystTagL : Line := "CRYST".toList
def dataTagL : Line := "data_".toList
def mmcifL : Line := "mmcif".toList
def pdbFmtL : Line := "pdb".toList
def autoL : Line := "auto".toList
def cifExtL : Line := ".cif".toList
def mmcifExtL : Line := ".mmcif".toList
def renumberedTagL : Line := "_renumbered".toList

/-! ### mmCIF section processing (`renumber_mmcif`, lines 95-369) -/

/-- `atom_site_columns.index(name) if name in atom_site_columns else None`
(`renumber.py` lines 210-229 and analogues). -/
def colIndex (cols : List Line) (name : Line) : Option Nat :=
  if name ∈ cols then some (List.indexOf name cols) else none

/-- `parts[i] if i is not None else None`: the outer `Option` is the
exception monad (`none` models an `IndexError`), the inner `Option` is the
Python value (`None` when the column is absent). -/
def partAt (parts : List Line) : Option Nat → Option (Option Line)
  | none => some none
  | some i => (parts.get? i).map some

/-- The row guard `line.strip() and not line.strip().startswith("_")`
(`renumber.py` lines 205, 265, 309, 328-332). -/
def rowGuard (line : Line) : Bool :=
  !(pyStrip line).isEmpty && !(underscoreL.isPrefixOf (pyStrip line))

/-- Result of processing one data row in the `_atom_site` branch:
`emit` models the `continue` of the HETATM exemption (lines 236-238);
`fall` carries the current binding of `line` into the remaining section
branches and the final `output_lines.append(line)`. -/
inductive RowStep where
  | emit (l : Line)
  | fall (l : Line)

/-- The line a `RowStep` carries. -/
def RowStep.line : RowStep → Line
  | .emit l => l
  | .fall l => l

/-- The `auth_seq_id` half of the `_atom_site` transform
(`renumber.py` lines 254-259), applied to the possibly already rewritten
line and its re-tokenized parts; any `IndexError`/`ValueError` leaves the
current line as is (the enclosing `except` at lines 261-262). -/
def authPhase (s : Int) (cols : List Line) (line : Line) (parts : List Line) : RowStep :=
  match colIndex cols authSeqL with
  | none => .fall line
  | some ai =>
    match parts.get? ai with
    | none => .fall line
    | some w =>
      if w = qMarkL then .fall line
      else
        match shiftNumStr s w with
        | none => .fall line
        | some nv => .fall (replace_field_preserve_format line ai nv)

/-- The body of the `_atom_site` `try` block (`renumber.py` lines 209-262),
for a row that passed the guard and the field-count check. -/
def atomSiteTryCore (s : Int) (chain : Option Line) (cols : List Line)
    (line : Line) (parts : List Line) : RowStep :=
  match partAt parts (colIndex cols groupPDBL) with
  | none => .fall line
  | some recTy =>
    if recTy = some hetatmL then .emit line
    else
      match partAt parts (colIndex cols labelAsymL) with
      | none => .fall line
      | some curChain =>
        if chain.isNone || curChain == chain then
          match colIndex cols labelSeqL with
          | none => authPhase s cols line parts
          | some li =>
            match parts.get? li with
            | none => .fall line
            | some v =>
              if v = dotL then authPhase s cols line parts
              else
                match shiftNumStr s v with
                | none => .fall line
                | some nv =>
                  let line1 := replace_field_preserve_format line li nv
                  authPhase s cols line1 (fieldValues line1)
        else .fall line

/-- The `_atom_site` data-row branch (`renumber.py` lines 204-262). -/
def atomSiteStep (s : Int) (chain : Option Line) (cols : List Line) (line : Line) : RowStep :=
  if rowGuard line then
    let parts := fieldValues line
    if cols.length ≤ parts.length then atomSiteTryCore s chain cols line parts
    else .fall line
  else .fall line

/-- The collection loop of the `_pdbx_poly_seq_scheme` branch
(`renumber.py` lines 293-298): walk `[seq_id_idx, pdb_seq_num_idx,
auth_seq_num_idx]`, skipping absent columns and `.`/`?` sentinels, parsing
each remaining field; a parse or index failure aborts the whole row with no
replacement applied. -/
def collectShift (s : Int) (parts : List Line) : List (Option Nat) → Option (List (Nat × Line))
  | [] => some []
  | none :: rest => collectShift s parts rest
  | some i :: rest =>
    match parts.get? i with
    | none => none
    | some v =>
      if v = dotL ∨ v = qMarkL then collectShift s parts rest
      else
        match shiftNumStr s v with
        | none => none
        | some nv => (collectShift s parts rest).map (fun t => (i, nv) :: t)

/-- Insertion step for `sorted(..., key=lambda x: x[0], reverse=True)`. -/
def insertDesc (x : Nat × Line) : List (Nat × Line) → List (Nat × Line)
  | [] => [x]
  | y :: ys => if y.1 ≤ x.1 then x :: y :: ys else y :: insertDesc x ys

/-- `sorted(indices_to_update, key=lambda x: x[0], reverse=True)`
(`renumber.py` lines 300-302). -/
def sortDesc (l : List (Nat × Line)) : List (Nat × Line) := l.foldr insertDesc []

/-- The `_pdbx_poly_seq_scheme` data-row branch (`renumber.py` lines 264-306). -/
def polySeqStep (s : Int) (chain : Option Line) (cols : List Line) (line : Line) : Line :=
  if rowGuard line then
    let parts := fieldValues line
    if cols.length ≤ parts.length then
      match partAt parts (colIndex cols asymIdL) with
      | none => line
      | some curChain =>
        if chain.isNone || curChain == chain then
          match collectShift s parts
              [colIndex cols seqIdL, colIndex cols pdbSeqNumL, colIndex cols authSeqNumL] with
          | none => line
          | some upds =>
            (sortDesc upds).foldl (fun ln p => replace_field_preserve_format ln p.1 p.2) line
        else line
    else line
  else line

/-- The `_entity_poly_seq` data-row branch (`renumber.py` lines 308-325). -/
def entityStep (s : Int) (cols : List Line) (line : Line) : Line :=
  if rowGuard line then
    let parts := fieldValues line
    if cols.length ≤ parts.length then
      match colIndex cols numColL with
      | none => line
      | some i =>
        match parts.get? i with
        | none => line
        | some v =>
          if v = dotL ∨ v = qMarkL then line
          else
            match shiftNumStr s v with
            | none => line
            | some nv => replace_field_preserve_format line i nv
    else line
  else line

/-- The `_ma_qa_metric_local` data-row branch (`renumber.py` lines 327-363). -/
def maQaStep (s : Int) (chain : Option Line) (cols : List Line) (line : Line) : Line :=
  if rowGuard line then
    let parts := fieldValues line
    if cols.length ≤ parts.length then
      match partAt parts (colIndex cols labelAsymL) with
      | none => line
      | some curChain =>
        if chain.isNone || curChain == chain then
          match colIndex cols labelSeqL with
          | none => line
          | some li =>
            match parts.get? li with
            | none => line
            | some v =>
              if v = dotL ∨ v = qMarkL then line
              else
                match shiftNumStr s v with
                | none => line
                | some nv => replace_field_preserve_format line li nv
        else line
    else line
  else line

/-- The section-state of the scanner (`renumber.py` lines 132-140): the four
`in_*` flags and the four column schemas.  Flags are reset only by the
`#`/`loop_` terminator branch (lines 194-202). -/
structure MmState where
  inAtomSite : Bool
  inPolySeq : Bool
  inEntity : Bool
  inMaQa : Bool
  atomCols : List Line
  polyCols : List Line
  entityCols : List Line
  maQaCols : List Line

/-- All flags cleared (`renumber.py` lines 195-199). -/
def resetFlags (st : MmState) : MmState :=
  { st with inAtomSite := false, inPolySeq := false, inEntity := false, inMaQa := false }

/-- The initial scanner state (`renumber.py` lines 133-140). -/
def initState : MmState := ⟨false, false, false, false, [], [], [], []⟩

/-- Processing of one data line (`renumber.py` lines 204-366): the four
section branches run in sequence on the current binding of `line`; the
HETATM `continue` in the `_atom_site` branch short-circuits the rest. -/
def dataLineStep (s : Int) (chain : Option Line) (st : MmState) (line : Line) : Line :=
  match (if st.inAtomSite then atomSiteStep s chain st.atomCols line else .fall line) with
  | .emit l => l
  | .fall l1 =>
    let l2 := if st.inPolySeq then polySeqStep s chain st.polyCols l1 else l1
    let l3 := if st.inEntity then entityStep s st.entityCols l2 else l2
    if st.inMaQa then maQaStep s chain st.maQaCols l3 else l3

/-- `lines[i].strip().startswith(tag)` for a section-header tag. -/
def isSectionHdr (tag : Line) (l : Line) : Bool := tag.isPrefixOf (pyStrip l)

/-- Python `s.split(sep)` for a single-character separator. -/
def splitOnChar (sep : Char) : List Char → List (List Char)
  | [] => [[]]
  | c :: cs =>
    match splitOnChar sep cs with
    | [] => [[]]
    | h :: t => if c = sep then [] :: h :: t else (c :: h) :: t

/-- `lines[i].strip().split(".")[1]` (`renumber.py` lines 150, 163, 174, 187);
on a section-header line a second component always exists, so the default
is unreachable. -/
def colNameOf (l : Line) : Line := (splitOnChar '.' (pyStrip l)).getD 1 []

/-- The main scan loop of `renumber_mmcif` (`renumber.py` lines 142-366),
with explicit fuel (any fuel at least the number of lines gives the loop's
behaviour; each iteration consumes at least one line). -/
def renumLoop (s : Int) (chain : Option Line) : Nat → MmState → List Line → List Line
  | 0, _, _ => []
  | _ + 1, _, [] => []
  | fuel + 1, st, line :: rest =>
    if isSectionHdr atomSiteDotL line then
      let run := (line :: rest).takeWhile (isSectionHdr atomSiteDotL)
      run ++ renumLoop s chain fuel
          { st with inAtomSite := true, atomCols := run.map colNameOf }
          ((line :: rest).dropWhile (isSectionHdr atomSiteDotL))
    else if isSectionHdr polySeqDotL line then
      let run := (line :: rest).takeWhile (isSectionHdr polySeqDotL)
      run ++ renumLoop s chain fuel
          { st with inPolySeq := true, polyCols := run.map colNameOf }
          ((line :: rest).dropWhile (isSectionHdr polySeqDotL))
    else if isSectionHdr entityDotL line then
      let run := (line :: rest).takeWhile (isSectionHdr entityDotL)
      run ++ renumLoop s chain fuel
          { st with inEntity := true, entityCols := run.map colNameOf }
          ((line :: rest).dropWhile (isSectionHdr entityDotL))
    else if isSectionHdr maQaDotL line then
      let run := (line :: rest).takeWhile (isSectionHdr maQaDotL)
      run ++ renumLoop s chain fuel
          { st with inMaQa := true, maQaCols := run.map colNameOf }
          ((line :: rest).dropWhile (isSectionHdr maQaDotL))
    else if (pyStrip line == sharpL) || loopTagL.isPrefixOf (pyStrip line) then
      line :: renumLoop s chain fuel (resetFlags st) rest
    else
      dataLineStep s chain st line :: renumLoop s chain fuel st rest

/-- The per-line phase of `renumber_mmcif` on an already split line list. -/
def renumber_mmcif_lines (s : Int) (chain : Option Line) (ls : List Line) : List Line :=
  renumLoop s chain ls.length initState ls

/-- `renumber_mmcif` (`renumber.py` lines 95-369) as a text transform:
split the input text into lines, run the scanner, join with `"\n"`.
(The file read/write at lines 128 and 368 is modelled by taking and
returning the text.) -/
def renumber_mmcif (s : Int) (chain : Option Line) (text : Line) : Line :=
  joinNL (renumber_mmcif_lines s chain (pySplitlines text))

/-! ### PDB fixed-column renumbering (`renumber_pdb`, lines 372-425) -/

/-- `current_chain = line[21] if len(line) > 21 else None`
(`renumber.py` line 406), as a one-character string when present. -/
def pdbCurChain (line : Line) : Option Line :=
  if 21 < line.length then some [line.getD 21 ' '] else none

/-- The per-line transform of `renumber_pdb` (`renumber.py` lines 403-420). -/
def pdbLine (s : Int) (chain : Option Line) (line : Line) : Line :=
  if atomTagL.isPrefixOf line || terTagL.isPrefixOf line || anisouTagL.isPrefixOf line then
    if chain.isNone || pdbCurChain line == chain || pdbCurChain line == some [' '] then
      if 26 ≤ line.length then
        match pyInt ((line.drop 22).take 4) with
        | none => line
        | some old => line.take 22 ++ pad4 (old + s - 1) ++ line.drop 26
      else line
    else line
  else line

/-- `renumber_pdb` (`renumber.py` lines 372-425) as a text transform. -/
def renumber_pdb (s : Int) (chain : Option Line) (text : Line) : Line :=
  joinNL ((pySplitlines text).map (pdbLine s chain))

/-! ### Format detection and the facade (`renumber.py`, lines 428-514) -/

/-- Python's substring test `needle in hay`. -/
def containsSub (needle : Line) : Line → Bool
  | [] => needle.isEmpty
  | c :: cs => needle.isPrefixOf (c :: cs) || containsSub needle cs

/-- `text.strip().startswith((...))`: does the line start with any tag? -/
def startsWithAny (l : Line) (tags : List Line) : Bool := tags.any (fun t => t.isPrefixOf l)

/-- `detect_file_format` (`renumber.py` lines 428-454), as a function of the
file's text and its extension (Python `path.suffix`, dot included). -/
def detect_file_format (text suffix : Line) : Line :=
  if containsSub dataTagL text || containsSub atomSiteDotL text then mmcifL
  else if startsWithAny (pyStrip text)
      [atomTagL, hetatmL, headerTagL, titleTagL, remarkTagL, crystTagL] then pdbFmtL
  else if (suffix.map Char.toLower) = cifExtL ∨ (suffix.map Char.toLower) = mmcifExtL then mmcifL
  else pdbFmtL

/-- The abstract view of the input path used by `renumber_structure`:
whether it exists, and its parent / stem / suffix components. -/
structure PathInfo where
  pathExists : Bool
  parent : Line
  stem : Line
  suffix : Line

/-- Outcome of `renumber_structure`: the `FileNotFoundError` of line 494, or
the format dispatched on together with the output path used (no output is
produced in the `notFound` case). -/
inductive RenumberOutcome where
  | notFound
  | written (fmt : Line) (outPath : Line)

/-- `renumber_structure` (`renumber.py` lines 457-514): existence check
first, then format resolution (reading the text only for auto-detection),
then output-path resolution (`parent / (stem + "_renumbered" + suffix)` when
no output path is given), then dispatch. -/
def renumber_structure (p : PathInfo) (text : Line) (outPath : Option Line)
    (fmt : Line) : RenumberOutcome :=
  if p.pathExists = false then .notFound
  else
    let fmt2 := if fmt = autoL then detect_file_format text p.suffix else fmt
    let out :=
      match outPath with
      | some o => o
      | none => p.parent ++ '/' :: (p.stem ++ renumberedTagL ++ p.suffix)
    .written fmt2 out

/-! ### Claim-side (specification) definitions, written from the claim text
rather than the source, for the refinement-style claims C6 and C7 -/

/-- The condition of claim C6, as the claim words it: the chain filter is
unset, or the character at offset 21 equals the filter, or that character is
a space; and the line has at least 26 characters; and characters 22-25 parse
as an integer. -/
def pdbRenumberCond (chain : Option Line) (line : Line) : Bool :=
  (match chain with
   | none => true
   | some cid =>
     match line.get? 21 with
     | none => false
     | some c => ([c] == cid) || (c == ' ')) &&
  (26 ≤ line.length : Bool) &&
  (pyInt ((line.drop 22).take 4)).isSome

/-- The decision cascade of claim C7, as the claim words it. -/
def detectFormatSpec (text suffix : Line) : Line :=
  if containsSub dataTagL text || containsSub atomSiteDotL text then mmcifL
  else if startsWithAny (pyStrip text)
      [atomTagL, hetatmL, headerTagL, titleTagL, remarkTagL, crystTagL] then pdbFmtL
  else if (suffix.map Char.toLower) = cifExtL ∨ (suffix.map Char.toLower) = mmcifExtL then mmcifL
  else pdbFmtL

/-! ### Lemmas: the decimal printer `pyStr` and the parser `pyInt` -/

theorem natCharsAux_congr : ∀ f g n acc, n < f → n < g →
    natCharsAux f n acc = natCharsAux g n acc := by
  intro f
  induction f with
  | zero => intro g n acc h _; omega
  | succ f ih =>
    intro g n acc h hg
    cases g with
    | zero => omega
    | succ g =>
      simp only [natCharsAux]
      by_cases h10 : n < 10
      · simp [h10]
      · have hdiv : n / 10 < n := Nat.div_lt_self (by omega) (by omega)
        rw [if_neg h10, if_neg h10]
        exact ih _ _ _ (by omega) (by omega)

theorem natCharsAux_append : ∀ n acc, natCharsAux (n + 1) n acc = natChars n ++ acc := by
  intro n
  induction n using Nat.strong_induction_on with
  | _ n ih =>
    intro acc
    by_cases h10 : n < 10
    · simp only [natChars, natCharsAux, if_pos h10]; rfl
    · have hdiv : n / 10 < n := Nat.div_lt_self (by omega) (by omega)
      have h1 : ∀ a : List Char, natCharsAux (n + 1) n a
          = natChars (n / 10) ++ (Char.ofNat (48 + n % 10) :: a) := by
        intro a
        simp only [natCharsAux, if_neg h10]
        rw [natCharsAux_congr n (n / 10 + 1) (n / 10) _ (by omega) (by omega)]
        exact ih (n / 10) hdiv _
      rw [h1 acc, show natChars n = natCharsAux (n + 1) n [] from rfl, h1 []]
      rw [List.append_assoc]
      rfl

theorem natChars_lt10 {n : Nat} (h : n < 10) : natChars n = [Char.ofNat (48 + n)] := by
  show natCharsAux (n + 1) n [] = _
  simp [natCharsAux, h]

theorem natChars_ge10 {n : Nat} (h : 10 ≤ n) :
    natChars n = natChars (n / 10) ++ [Char.ofNat (48 + n % 10)] := by
  show natCharsAux (n + 1) n [] = _
  simp only [natCharsAux, if_neg (by omega : ¬ n < 10)]
  rw [natCharsAux_congr n (n / 10 + 1) (n / 10) _
        (by exact lt_of_lt_of_le (Nat.div_lt_self (by omega) (by omega)) (by omega)) (by omega)]
  exact natCharsAux_append (n / 10) _

theorem natChars_ne_nil (n : Nat) : natChars n ≠ [] := by
  by_cases h10 : n < 10
  · rw [natChars_lt10 h10]; simp
  · rw [natChars_ge10 (by omega)]; simp

theorem digitCharFacts {n : Nat} (h : n < 10) :
    (Char.ofNat (48 + n)).isDigit = true ∧ digitVal (Char.ofNat (48 + n)) = n ∧
    isPySpace (Char.ofNat (48 + n)) = false ∧ Char.ofNat (48 + n) ≠ '+' ∧
    Char.ofNat (48 + n) ≠ '-' := by
  interval_cases n <;> exact ⟨by decide, by decide, by decide, by decide, by decide⟩

theorem mem_natChars : ∀ n c, c ∈ natChars n → ∃ k, k < 10 ∧ c = Char.ofNat (48 + k) := by
  intro n
  induction n using Nat.strong_induction_on with
  | _ n ih =>
    intro c hc
    by_cases h10 : n < 10
    · rw [natChars_lt10 h10] at hc
      simp only [List.mem_singleton] at hc
      exact ⟨n, h10, hc⟩
    · rw [natChars_ge10 (by omega)] at hc
      rcases List.mem_append.mp hc with hmem | hmem
      · exact ih (n / 10) (Nat.div_lt_self (by omega) (by omega)) c hmem
      · simp only [List.mem_singleton] at hmem
        exact ⟨n % 10, Nat.mod_lt _ (by omega), hmem⟩

theorem pyDigitsAux_cons_digit {c : Char} (h : c.isDigit = true) (acc : Nat) (cs : List Char) :
    pyDigitsAux acc (c :: cs) = pyDigitsAux (10 * acc + digitVal c) cs := by
  rw [pyDigitsAux.eq_def]
  simp only [h, if_true]

theorem pyDigitsAux_natChars : ∀ n acc rest,
    pyDigitsAux acc (natChars n ++ rest)
      = pyDigitsAux (acc * 10 ^ (natChars n).length + n) rest := by
  intro n
  induction n using Nat.strong_induction_on with
  | _ n ih =>
    intro acc rest
    by_cases h10 : n < 10
    · obtain ⟨hdig, hval, -, -, -⟩ := digitCharFacts h10
      rw [natChars_lt10 h10, List.singleton_append, pyDigitsAux_cons_digit hdig, hval]
      congr 1
      rw [List.length_singleton, pow_one, Nat.mul_comm]
    · have hdiv : n / 10 < n := Nat.div_lt_self (by omega) (by omega)
      obtain ⟨hdig, hval, -, -, -⟩ := digitCharFacts (Nat.mod_lt n (show 0 < 10 by omega))
      rw [natChars_ge10 (by omega), List.append_assoc, ih (n / 10) hdiv,
        List.singleton_append, pyDigitsAux_cons_digit hdig, hval]
      congr 1
      rw [List.length_append, List.length_singleton, pow_succ, ← Nat.mul_assoc]
      generalize acc * 10 ^ (natChars (n / 10)).length = e
      omega

theorem pyNat_natChars (n : Nat) : pyNat (natChars n) = some n := by
  obtain ⟨c, cs, hcons⟩ : ∃ c cs, natChars n = c :: cs := by
    cases h : natChars n with
    | nil => exact absurd h (natChars_ne_nil n)
    | cons c cs => exact ⟨c, cs, rfl⟩
  have hc : c ∈ natChars n := by rw [hcons]; exact List.mem_cons_self _ _
  obtain ⟨k, hk, hck⟩ := mem_natChars n c hc
  have hdig : c.isDigit = true := by rw [hck]; exact (digitCharFacts hk).1
  rw [hcons]
  simp only [pyNat, if_pos hdig]
  rw [← hcons]
  have h := pyDigitsAux_natChars n 0 []
  rw [List.append_nil] at h
  simpa using h

theorem dropWhile_eq_self_of (l : Line) (h : ∀ c ∈ l, isPySpace c = false) :
    l.dropWhile isPySpace = l := by
  cases l with
  | nil => rfl
  | cons c cs =>
    have hc := h c (List.mem_cons_self c cs)
    simp [List.dropWhile_cons, hc]

theorem pyStrip_eq_self (l : Line) (h : ∀ c ∈ l, isPySpace c = false) : pyStrip l = l := by
  unfold pyStrip
  rw [dropWhile_eq_self_of l h,
    dropWhile_eq_self_of l.reverse (fun c hc => h c (List.mem_reverse.mp hc)),
    List.reverse_reverse]

theorem noSpace_natChars (n : Nat) : ∀ c ∈ natChars n, isPySpace c = false := by
  intro c hc
  obtain ⟨k, hk, hck⟩ := mem_natChars n c hc
  rw [hck]
  exact (digitCharFacts hk).2.2.1

theorem pyInt_natChars (n : Nat) : pyInt (natChars n) = some (Int.ofNat n) := by
  unfold pyInt
  rw [pyStrip_eq_self _ (noSpace_natChars n)]
  obtain ⟨c, cs, hcons⟩ : ∃ c cs, natChars n = c :: cs := by
    cases h : natChars n with
    | nil => exact absurd h (natChars_ne_nil n)
    | cons c cs => exact ⟨c, cs, rfl⟩
  have hc : c ∈ natChars n := by rw [hcons]; exact List.mem_cons_self _ _
  obtain ⟨k, hk, hck⟩ := mem_natChars n c hc
  obtain ⟨-, -, -, hplus, hminus⟩ := digitCharFacts hk
  rw [hcons]
  simp only [pyIntCore, if_neg (hck ▸ hplus), if_neg (hck ▸ hminus)]
  rw [← hcons, pyNat_natChars]
  rfl

/-- Round trip: Python's `int` applied to Python's `str` of an integer
recovers that integer. -/
theorem pyInt_pyStr : ∀ i : Int, pyInt (pyStr i) = some i
  | Int.ofNat n => pyInt_natChars n
  | Int.negSucc m => by
    show pyInt ('-' :: natChars (m + 1)) = some (Int.negSucc m)
    unfold pyInt
    rw [pyStrip_eq_self]
    · simp only [pyIntCore, if_neg (by decide : ¬ (('-' : Char) = '+')), if_pos rfl]
      rw [pyNat_natChars]
      simp [Int.negSucc_eq]
    · intro c hc
      rcases List.mem_cons.mp hc with h | h
      · rw [h]; decide
      · exact noSpace_natChars (m + 1) c h

theorem pyStrip_replicate_space (k : Nat) (l : Line) :
    pyStrip (List.replicate k ' ' ++ l) = pyStrip l := by
  have h : (List.replicate k ' ' ++ l).dropWhile isPySpace = l.dropWhile isPySpace := by
    induction k with
    | zero => simp
    | succ k ih =>
      rw [List.replicate_succ, List.cons_append, List.dropWhile_cons, if_pos (by decide)]
      exact ih
  unfold pyStrip
  rw [h]

/-- Round trip through the PDB four-column formatter: `int` of `f"{n:4d}"`
recovers `n`. -/
theorem pyInt_pad4 (i : Int) : pyInt (pad4 i) = some i := by
  unfold pad4 pyInt
  rw [pyStrip_replicate_space]
  exact pyInt_pyStr i

/-! ### Lemmas: the tokenizer `find_field_positions` -/

theorem findFieldsAux_blank {c : Char} (h : isBlank c = true) (fuel pos : Nat) (cs : List Char) :
    findFieldsAux (fuel + 1) pos (c :: cs) = findFieldsAux fuel (pos + 1) cs := by
  rw [findFieldsAux.eq_def]
  simp only [h, if_true]

theorem findFieldsAux_quote_none {c : Char} (hb : isBlank c = false) (hq : isQuote c = true)
    (fuel pos : Nat) {cs : List Char} (hd : cs.dropWhile (fun d => d != c) = []) :
    findFieldsAux (fuel + 1) pos (c :: cs)
      = [(pos, pos + 1 + (cs.takeWhile (fun d => d != c)).length,
          c :: cs.takeWhile (fun d => d != c))] := by
  rw [findFieldsAux.eq_def]
  simp only [hb, hq, hd, if_true, Bool.false_eq_true, if_false]

theorem findFieldsAux_quote_cons {c q : Char} (hb : isBlank c = false) (hq : isQuote c = true)
    (fuel pos : Nat) {cs rest : List Char} (hd : cs.dropWhile (fun d => d != c) = q :: rest) :
    findFieldsAux (fuel + 1) pos (c :: cs)
      = (pos, pos + 2 + (cs.takeWhile (fun d => d != c)).length,
          c :: (cs.takeWhile (fun d => d != c) ++ [q])) ::
        findFieldsAux fuel (pos + 2 + (cs.takeWhile (fun d => d != c)).length) rest := by
  rw [findFieldsAux.eq_def]
  simp only [hb, hq, hd, if_true, Bool.false_eq_true, if_false]

theorem findFieldsAux_tok {c : Char} (hb : isBlank c = false) (hq : isQuote c = false)
    (fuel pos : Nat) (cs : List Char) :
    findFieldsAux (fuel + 1) pos (c :: cs)
      = (pos, pos + ((c :: cs).takeWhile (fun d => !(isBlank d))).length,
          (c :: cs).takeWhile (fun d => !(isBlank d))) ::
        findFieldsAux fuel (pos + ((c :: cs).takeWhile (fun d => !(isBlank d))).length)
          ((c :: cs).dropWhile (fun d => !(isBlank d))) := by
  rw [findFieldsAux.eq_def]
  simp only [hb, hq, Bool.false_eq_true, if_false]

theorem length_takeWhile_le (p : Char → Bool) (l : List Char) :
    (l.takeWhile p).length ≤ l.length := by
  conv_rhs => rw [← List.takeWhile_append_dropWhile p l]
  rw [List.length_append]
  omega

theorem take_takeWhile (p : Char → Bool) (l : List Char) :
    l.take (l.takeWhile p).length = l.takeWhile p :=
  (List.prefix_iff_eq_take.mp (List.takeWhile_prefix p)).symm

theorem take_quoted_field (c q : Char) (tw rest : List Char) :
    (c :: (tw ++ q :: rest)).take (tw.length + 2) = c :: (tw ++ [q]) := by
  rw [show tw.length + 2 = (tw.length + 1) + 1 by omega, List.take_succ_cons]
  congr 1
  rw [show (q :: rest : List Char) = [q] ++ rest from rfl, ← List.append_assoc]
  rw [show tw.length + 1 = (tw ++ [q]).length by simp]
  exact List.take_left _ _

theorem drop_quoted_field (c q : Char) (tw rest : List Char) (j : Nat) :
    (c :: (tw ++ q :: rest)).drop (tw.length + 2 + j) = rest.drop j := by
  have hl : (c :: (tw ++ [q])).length = tw.length + 2 := by simp
  rw [show (c :: (tw ++ q :: rest) : List Char) = (c :: (tw ++ [q])) ++ rest by simp, ← hl,
    List.drop_append]

theorem findFieldsAux_spec : ∀ fuel pos cs, cs.length ≤ fuel →
    ∀ t ∈ findFieldsAux fuel pos cs,
      pos ≤ t.1 ∧ t.1 < t.2.1 ∧ t.2.1 ≤ pos + cs.length ∧
      t.2.2 = (cs.drop (t.1 - pos)).take (t.2.1 - t.1) := by
  intro fuel
  induction fuel with
  | zero =>
    intro pos cs _ t ht
    rw [findFieldsAux.eq_def] at ht
    simp at ht
  | succ fuel ih =>
    intro pos cs hlen t ht
    cases cs with
    | nil =>
      rw [findFieldsAux.eq_def] at ht
      simp at ht
    | cons c cs' =>
      simp only [List.length_cons] at hlen
      cases hb : isBlank c with
      | true =>
        rw [findFieldsAux_blank hb] at ht
        obtain ⟨h1, h2, h3, h4⟩ := ih (pos + 1) cs' (by omega) t ht
        refine ⟨by omega, h2, by simp only [List.length_cons]; omega, ?_⟩
        rw [h4]
        congr 1
        rw [show t.1 - pos = (t.1 - (pos + 1)) + 1 by omega, List.drop_succ_cons]
      | false =>
        cases hq : isQuote c with
        | true =>
          cases hd : cs'.dropWhile (fun d => d != c) with
          | nil =>
            obtain ⟨tw, htw⟩ : ∃ l, l = cs'.takeWhile (fun d => d != c) := ⟨_, rfl⟩
            have hsplit : cs' = tw := by
              rw [htw]
              conv_lhs => rw [← List.takeWhile_append_dropWhile (fun d => d != c) cs']
              rw [hd, List.append_nil]
            rw [findFieldsAux_quote_none hb hq fuel pos hd, ← htw] at ht
            simp only [List.mem_singleton] at ht
            subst ht
            dsimp only
            have hlw : tw.length = cs'.length := by rw [hsplit]
            refine ⟨le_refl _, by omega, by simp only [List.length_cons]; omega, ?_⟩
            rw [Nat.sub_self, List.drop_zero,
              show pos + 1 + tw.length - pos = tw.length + 1 by omega,
              List.take_succ_cons]
            congr 1
            rw [hsplit, List.take_length]
          | cons q rest =>
            obtain ⟨tw, htw⟩ : ∃ l, l = cs'.takeWhile (fun d => d != c) := ⟨_, rfl⟩
            have hsplit : cs' = tw ++ (q :: rest) := by
              rw [htw]
              conv_lhs => rw [← List.takeWhile_append_dropWhile (fun d => d != c) cs']
              rw [hd]
            rw [findFieldsAux_quote_cons hb hq fuel pos hd, ← htw] at ht
            have hklen : cs'.length = tw.length + 1 + rest.length := by
              have h := congrArg List.length hsplit
              simp only [List.length_append, List.length_cons] at h
              omega
            rw [hsplit]
            simp only [List.length_cons, List.length_append]
            rcases List.mem_cons.mp ht with hh | hh
            · subst hh
              dsimp only
              refine ⟨le_refl _, by omega, by omega, ?_⟩
              rw [Nat.sub_self, List.drop_zero,
                show pos + 2 + tw.length - pos = tw.length + 2 by omega]
              exact (take_quoted_field c q tw rest).symm
            · obtain ⟨h1, h2, h3, h4⟩ := ih _ rest (by omega) t hh
              refine ⟨by omega, h2, by omega, ?_⟩
              rw [h4]
              congr 1
              rw [show t.1 - pos = tw.length + 2 + (t.1 - (pos + 2 + tw.length)) by omega,
                drop_quoted_field]
        | false =>
          obtain ⟨tok, htok⟩ : ∃ l, l = (c :: cs').takeWhile (fun d => !(isBlank d)) := ⟨_, rfl⟩
          obtain ⟨rem, hrem⟩ : ∃ l, l = (c :: cs').dropWhile (fun d => !(isBlank d)) := ⟨_, rfl⟩
          have hsplit : (c :: cs' : List Char) = tok ++ rem := by
            rw [htok, hrem, List.takeWhile_append_dropWhile]
          have hm : 1 ≤ tok.length := by
            rw [htok, show (c :: cs').takeWhile (fun d => !(isBlank d))
                = c :: cs'.takeWhile (fun d => !(isBlank d)) from by
              simp [List.takeWhile_cons, hb]]
            simp
          have hlen2 : tok.length + rem.length = cs'.length + 1 := by
            have h := congrArg List.length hsplit
            simp only [List.length_cons, List.length_append] at h
            omega
          rw [findFieldsAux_tok hb hq, ← htok, ← hrem] at ht
          rcases List.mem_cons.mp ht with hh | hh
          · subst hh
            dsimp only
            refine ⟨le_refl _, by omega, by simp only [List.length_cons]; omega, ?_⟩
            rw [Nat.sub_self, List.drop_zero, Nat.add_sub_cancel_left, htok, take_takeWhile]
          · obtain ⟨h1, h2, h3, h4⟩ := ih (pos + tok.length) rem (by omega) t hh
            refine ⟨by omega, h2, by simp only [List.length_cons]; omega, ?_⟩
            rw [h4]
            congr 1
            rw [hsplit, show t.1 - pos = tok.length + (t.1 - (pos + tok.length)) by omega,
              List.drop_append]

/-! ### Lemmas: the scan loop emits exactly one line per input line -/

theorem header_run_length {s : Int} {chain : Option Line} {fuel : Nat} (st' : MmState)
    (p : Line → Bool) (line : Line) (rest : List Line) (hp : p line = true)
    (hfuel : rest.length + 1 ≤ fuel + 1)
    (ih : ∀ st ls, ls.length ≤ fuel → (renumLoop s chain fuel st ls).length = ls.length) :
    ((line :: rest).takeWhile p ++
        renumLoop s chain fuel st' ((line :: rest).dropWhile p)).length
      = (line :: rest).length := by
  have hsplit := List.takeWhile_append_dropWhile p (line :: rest)
  have hlen := congrArg List.length hsplit
  simp only [List.length_append, List.length_cons] at hlen
  have htw : 1 ≤ ((line :: rest).takeWhile p).length := by
    rw [show (line :: rest).takeWhile p = line :: rest.takeWhile p from by
      simp [List.takeWhile_cons, hp]]
    simp
  rw [List.length_append, ih st' _ (by omega)]
  simp only [List.length_cons]
  omega

theorem renumLoop_length (s : Int) (chain : Option Line) :
    ∀ fuel st ls, ls.length ≤ fuel →
      (renumLoop s chain fuel st ls).length = ls.length := by
  intro fuel
  induction fuel with
  | zero =>
    intro st ls h
    have hnil : ls = [] := List.eq_nil_of_length_eq_zero (by omega)
    subst hnil
    rfl
  | succ fuel ih =>
    intro st ls hlen
    cases ls with
    | nil => rfl
    | cons line rest =>
      simp only [List.length_cons] at hlen
      rw [renumLoop.eq_def]
      dsimp only
      repeat' split
      · exact header_run_length _ _ line rest (by assumption) (by omega) ih
      · exact header_run_length _ _ line rest (by assumption) (by omega) ih
      · exact header_run_length _ _ line rest (by assumption) (by omega) ih
      · exact header_run_length _ _ line rest (by assumption) (by omega) ih
      · simp only [List.length_cons]
        rw [ih _ _ (by omega)]
      · simp only [List.length_cons]
        rw [ih _ _ (by omega)]

theorem renumber_mmcif_lines_length (s : Int) (chain : Option Line) (ls : List Line) :
    (renumber_mmcif_lines s chain ls).length = ls.length :=
  renumLoop_length s chain ls.length initState ls (le_refl _)

/-! ### Lemmas: joined output and trailing newlines -/

theorem pySplitlinesAux_no_newline : ∀ cs acc,
    (∀ c ∈ acc, c ≠ '\n') →
    ∀ l ∈ pySplitlinesAux acc cs, ∀ ch ∈ l, ch ≠ '\n' := by
  intro cs
  induction cs with
  | nil =>
    intro acc hacc l hl ch hch
    rw [pySplitlinesAux.eq_def] at hl
    cases hacc0 : acc.isEmpty with
    | true => simp [hacc0] at hl
    | false =>
      simp only [hacc0, Bool.false_eq_true, if_false, List.mem_singleton] at hl
      subst hl
      exact hacc ch (List.mem_reverse.mp hch)
  | cons c cs ih =>
    intro acc hacc l hl ch hch
    rw [pySplitlinesAux.eq_def] at hl
    cases hnl : (c = '\n' || c = '\x0d') with
    | true =>
      simp only [hnl, if_true] at hl
      rcases List.mem_cons.mp hl with h | h
      · subst h
        exact hacc ch (List.mem_reverse.mp hch)
      · exact ih [] (by simp) l h ch hch
    | false =>
      simp only [hnl, Bool.false_eq_true, if_false] at hl
      refine ih (c :: acc) ?_ l hl ch hch
      intro d hd
      rcases List.mem_cons.mp hd with h | h
      · subst h
        simp only [Bool.or_eq_false_iff, decide_eq_false_iff_not] at hnl
        exact hnl.1
      · exact hacc d h

theorem pySplitlines_no_newline (t : List Char) :
    ∀ l ∈ pySplitlines t, ∀ ch ∈ l, ch ≠ '\n' :=
  pySplitlinesAux_no_newline (normEOL t) [] (by simp)

theorem pyStr_no_newline (i : Int) : ∀ ch ∈ pyStr i, ch ≠ '\n' := by
  intro ch hch
  have hsp : isPySpace ch = false := by
    cases i with
    | ofNat n => exact noSpace_natChars n ch hch
    | negSucc m =>
      rcases List.mem_cons.mp hch with h1 | h1
      · subst h1; decide
      · exact noSpace_natChars (m + 1) ch h1
  intro he
  subst he
  exact absurd hsp (by decide)

theorem pad4_no_newline (i : Int) : ∀ ch ∈ pad4 i, ch ≠ '\n' := by
  intro ch hch
  rcases List.mem_append.mp hch with h | h
  · have := List.eq_of_mem_replicate h
    subst this
    decide
  · exact pyStr_no_newline i ch h

theorem pdbLine_cases (s : Int) (chain : Option Line) (l : Line) :
    pdbLine s chain l = l ∨
    ∃ old, pyInt ((l.drop 22).take 4) = some old ∧ 26 ≤ l.length ∧
      pdbLine s chain l = l.take 22 ++ pad4 (old + s - 1) ++ l.drop 26 := by
  unfold pdbLine
  split
  next =>
    split
    next =>
      split
      next hlen =>
        cases hp : pyInt ((l.drop 22).take 4) with
        | none => exact Or.inl rfl
        | some old => exact Or.inr ⟨old, rfl, hlen, rfl⟩
      next => exact Or.inl rfl
    next => exact Or.inl rfl
  next => exact Or.inl rfl

theorem pdbLine_no_newline (s : Int) (chain : Option Line) (l : Line)
    (h : ∀ ch ∈ l, ch ≠ '\n') : ∀ ch ∈ pdbLine s chain l, ch ≠ '\n' := by
  intro ch hch
  rcases pdbLine_cases s chain l with hc | ⟨old, -, -, hc⟩
  · rw [hc] at hch
    exact h ch hch
  · rw [hc] at hch
    rcases List.mem_append.mp hch with h1 | h1
    · rcases List.mem_append.mp h1 with h2 | h2
      · exact h ch (List.mem_of_mem_take h2)
      · exact pad4_no_newline _ ch h2
    · exact h ch (List.mem_of_mem_drop h1)

theorem pyStr_ne_nil (i : Int) : pyStr i ≠ [] := by
  cases i with
  | ofNat n => exact natChars_ne_nil n
  | negSucc m => simp [pyStr]

theorem pad4_ne_nil (i : Int) : pad4 i ≠ [] := by
  unfold pad4
  intro h
  rcases List.append_eq_nil.mp h with ⟨-, h2⟩
  exact pyStr_ne_nil i h2

theorem pdbLine_eq_nil_iff (s : Int) (chain : Option Line) (l : Line) :
    pdbLine s chain l = [] ↔ l = [] := by
  constructor
  · intro hnil
    rcases pdbLine_cases s chain l with hc | ⟨old, -, hlen, hc⟩
    · rw [← hc]
      exact hnil
    · rw [hc] at hnil
      rcases List.append_eq_nil.mp hnil with ⟨h3, -⟩
      rcases List.append_eq_nil.mp h3 with ⟨-, h4⟩
      exact absurd h4 (pad4_ne_nil _)
  · intro h
    subst h
    rcases pdbLine_cases s chain [] with hc | ⟨old, -, hlen, -⟩
    · exact hc
    · simp at hlen

theorem joinNL_getLast (L : List Line) (h : ∀ l ∈ L, ∀ ch ∈ l, ch ≠ '\n') :
    (joinNL L).getLast? = some '\n' ↔ 2 ≤ L.length ∧ L.getLast? = some ([] : Line) := by
  induction L with
  | nil =>
    rw [show joinNL [] = [] from rfl]
    simp
  | cons l ls ih =>
    cases ls with
    | nil =>
      rw [show joinNL [l] = l from rfl]
      constructor
      · intro hl
        exact absurd rfl (h l (List.mem_singleton.mpr rfl) '\n' (List.mem_of_mem_getLast? hl))
      · rintro ⟨h2, -⟩
        simp only [List.length_singleton] at h2
        omega
    | cons l' ls' =>
      rw [show joinNL (l :: l' :: ls') = l ++ '\n' :: joinNL (l' :: ls') from rfl,
        List.getLast?_append_cons]
      cases hj : joinNL (l' :: ls') with
      | nil =>
        have hls' : ls' = [] := by
          cases ls' with
          | nil => rfl
          | cons l'' ls'' =>
            rw [show joinNL (l' :: l'' :: ls'') = l' ++ '\n' :: joinNL (l'' :: ls'') from rfl]
              at hj
            rcases List.append_eq_nil.mp hj with ⟨-, h2⟩
            simp at h2
        subst hls'
        have hl' : l' = [] := by
          rw [show joinNL [l'] = l' from rfl] at hj
          exact hj
        subst hl'
        simp
      | cons j js =>
        rw [List.getLast?_cons_cons, ← hj,
          ih (fun x hx => h x (List.mem_cons_of_mem l hx))]
        constructor
        · rintro ⟨-, h3⟩
          refine ⟨by simp only [List.length_cons]; omega, ?_⟩
          rw [List.getLast?_cons_cons]
          exact h3
        · rintro ⟨-, h3⟩
          rw [List.getLast?_cons_cons] at h3
          refine ⟨?_, h3⟩
          cases ls' with
          | nil =>
            exfalso
            have hl' : l' = [] := by
              have h4 := h3
              rw [show (([l'] : List Line).getLast? : Option Line) = some l' from rfl] at h4
              exact Option.some.inj h4
            rw [show joinNL [l'] = l' from rfl, hl'] at hj
            simp at hj
          | cons a b =>
            simp only [List.length_cons]
            omega

theorem renumber_pdb_trailing (s : Int) (chain : Option Line) (t : Line) :
    (renumber_pdb s chain t).getLast? = some '\n'
      ↔ 2 ≤ (pySplitlines t).length ∧ (pySplitlines t).getLast? = some ([] : Line) := by
  unfold renumber_pdb
  rw [joinNL_getLast]
  · rw [List.length_map, List.getLast?_map]
    cases hgl : (pySplitlines t).getLast? with
    | none => simp
    | some l =>
      simp only [Option.map_some', Option.some.injEq]
      rw [pdbLine_eq_nil_iff]
  · intro l hl
    obtain ⟨l0, hl0, rfl⟩ := List.mem_map.mp hl
    exact pdbLine_no_newline s chain l0 (pySplitlines_no_newline t l0 hl0)

/-! ### Lemmas: the PDB chain condition, code side versus claim side -/

theorem pdbCurChain_eq (line : Line) :
    pdbCurChain line = (line.get? 21).map (fun c => [c]) := by
  unfold pdbCurChain
  by_cases h : 21 < line.length
  · rw [if_pos h, List.get?_eq_get h]
    rw [List.getD_eq_get?, List.get?_eq_get h]
    rfl
  · rw [if_neg h, List.get?_eq_none.mpr (by omega)]
    rfl

theorem pdbRenumberCond_eq_code (chain : Option Line) (line : Line) :
    pdbRenumberCond chain line
      = ((chain.isNone || pdbCurChain line == chain || pdbCurChain line == some [' ']) &&
         decide (26 ≤ line.length) && (pyInt ((line.drop 22).take 4)).isSome) := by
  unfold pdbRenumberCond
  rw [pdbCurChain_eq]
  cases chain with
  | none => simp
  | some cid =>
    cases hg : line.get? 21 with
    | none => simp
    | some c =>
      simp only [Option.map_some', Option.isNone_some, Bool.false_or]
      rw [show (some [c] == some cid : Bool) = ([c] == cid) from rfl,
        show (some [c] == some [' '] : Bool) = ((c == ' ') && true) from rfl, Bool.and_true]

theorem pad4_length_of_le {i : Int} (h : (pyStr i).length ≤ 4) : (pad4 i).length = 4 := by
  unfold pad4
  rw [List.length_append, List.length_replicate]
  omega

/-! ### The claims -/

/-- C1: every residue-number rewrite of the transforms goes through
`shiftNumStr` (the four mmCIF sites) or writes `pad4 (old + s - 1)` (the PDB
site): if the old field parses as the integer `r` and `startResidue` is `s`,
the value written is the decimal rendering of `r + s - 1`, whose numeric
value is exactly `r + s - 1`; with `s = 1` every in-scope field keeps its
numeric value. -/
theorem C1_offset_correct (s r : Int) (v : Line) (h : pyInt v = some r) :
    shiftNumStr s v = some (pyStr (r + s - 1)) ∧
    pyInt (pyStr (r + s - 1)) = some (r + s - 1) ∧
    pyInt (pad4 (r + s - 1)) = some (r + s - 1) ∧
    (s = 1 → pyInt (pyStr (r + s - 1)) = some r ∧ pyInt (pad4 (r + s - 1)) = some r) := by
  refine ⟨?_, pyInt_pyStr _, pyInt_pad4 _, ?_⟩
  · unfold shiftNumStr
    rw [h]
    rfl
  · intro hs
    subst hs
    rw [show r + 1 - 1 = r by ring]
    exact ⟨pyInt_pyStr r, pyInt_pad4 r⟩

/-- Witness for C1 at `v = "7"`, `r = 7`, `s = 3`. -/
theorem C1_offset_correct_witness :
    shiftNumStr 3 ['7'] = some (pyStr (7 + 3 - 1)) ∧
    pyInt (pyStr ((7 : Int) + 3 - 1)) = some (7 + 3 - 1) ∧
    pyInt (pad4 ((7 : Int) + 3 - 1)) = some (7 + 3 - 1) ∧
    ((3 : Int) = 1 → pyInt (pyStr ((7 : Int) + 3 - 1)) = some 7 ∧
      pyInt (pad4 ((7 : Int) + 3 - 1)) = some 7) :=
  C1_offset_correct 3 7 ['7'] (by decide)

/-- C5 counterexample: a four-digit residue number pushed past 9999 widens
the field, so the line grows and the claimed column stability fails. -/
theorem C5_counterexample :
    pdbLine 3 none ("ATOM                  9999XY".toList)
        = "ATOM                  10001XY".toList ∧
      ("ATOM                  10001XY".toList).length
        ≠ ("ATOM                  9999XY".toList).length :=
  ⟨by decide, by decide⟩

/-- C5 amended: for a transformed PDB line (the rewrite produced the
four-column splice), line length and all characters outside offsets 22-25
are unchanged PROVIDED the new number's decimal string is at most four
characters wide; a wider number widens the field and shifts the suffix. -/
theorem C5_column_stability (s : Int) (chain : Option Line) (line : Line) (old : Int)
    (hsp : pdbLine s chain line = line.take 22 ++ pad4 (old + s - 1) ++ line.drop 26)
    (hlen : 26 ≤ line.length) (hw : (pyStr (old + s - 1)).length ≤ 4) :
    (pdbLine s chain line).length = line.length ∧
    (pdbLine s chain line).take 22 = line.take 22 ∧
    (pdbLine s chain line).drop 26 = line.drop 26 := by
  have htk : (line.take 22).length = 22 := by
    rw [List.length_take]
    omega
  have hp4 : (pad4 (old + s - 1)).length = 4 := pad4_length_of_le hw
  refine ⟨?_, ?_, ?_⟩
  · rw [hsp]
    simp only [List.length_append, List.length_drop]
    omega
  · rw [hsp, List.append_assoc]
    have h := List.take_left (line.take 22) (pad4 (old + s - 1) ++ line.drop 26)
    rw [htk] at h
    exact h
  · rw [hsp]
    have h := List.drop_left (line.take 22 ++ pad4 (old + s - 1)) (line.drop 26)
    rw [List.length_append, htk, hp4] at h
    exact h

/-- Witness for C5 on a concrete 28-character ATOM line with `s = 1`. -/
theorem C5_column_stability_witness :
    (pdbLine 1 none ("ATOM                  9999XY".toList)).length
        = ("ATOM                  9999XY".toList).length ∧
      (pdbLine 1 none ("ATOM                  9999XY".toList)).take 22
        = ("ATOM                  9999XY".toList).take 22 ∧
      (pdbLine 1 none ("ATOM                  9999XY".toList)).drop 26
        = ("ATOM                  9999XY".toList).drop 26 :=
  C5_column_stability 1 none _ 9999 (by decide) (by decide) (by decide)

/-- C6: a PDB candidate line (prefix ATOM, TER or ANISOU) is renumbered
exactly under the claim's condition `pdbRenumberCond` (chain filter unset,
or the character at offset 21 equals the filter or is a space; length at
least 26; columns 22-25 parse as an integer): when it holds the four-column
splice is applied, otherwise the line is returned unchanged. -/
theorem C6_pdb_scope (s : Int) (chain : Option Line) (line : Line)
    (hcand : (atomTagL.isPrefixOf line || terTagL.isPrefixOf line ||
      anisouTagL.isPrefixOf line) = true) :
    (pdbRenumberCond chain line = true →
      ∀ old, pyInt ((line.drop 22).take 4) = some old →
        pdbLine s chain line = line.take 22 ++ pad4 (old + s - 1) ++ line.drop 26) ∧
    (pdbRenumberCond chain line = false → pdbLine s chain line = line) := by
  constructor
  · intro hcond old hp
    rw [pdbRenumberCond_eq_code] at hcond
    simp only [Bool.and_eq_true, decide_eq_true_eq] at hcond
    obtain ⟨⟨hchain, hlen⟩, -⟩ := hcond
    unfold pdbLine
    rw [if_pos hcand, if_pos hchain, if_pos hlen, hp]
  · intro hcond
    rw [pdbRenumberCond_eq_code] at hcond
    unfold pdbLine
    rw [if_pos hcand]
    by_cases hchain : (chain.isNone || pdbCurChain line == chain ||
        pdbCurChain line == some [' ']) = true
    · rw [if_pos hchain]
      by_cases hlen : 26 ≤ line.length
      · rw [if_pos hlen]
        cases hp : pyInt ((line.drop 22).take 4) with
        | none => rfl
        | some old =>
          exfalso
          rw [hchain, hp, decide_eq_true hlen] at hcond
          simp at hcond
      · rw [if_neg hlen]
    · exact if_neg hchain

/-- Witness for C6: a filtered chain-A ATOM line gets the splice, and a
chain-B line under an A filter is unchanged. -/
theorem C6_pdb_scope_witness :
    ((pdbRenumberCond (some ['A']) ("ATOM                 A   7      1.0".toList) = true →
      ∀ old, pyInt ((("ATOM                 A   7      1.0".toList).drop 22).take 4) = some old →
        pdbLine 5 (some ['A']) ("ATOM                 A   7      1.0".toList)
          = ("ATOM                 A   7      1.0".toList).take 22 ++ pad4 (old + 5 - 1)
            ++ ("ATOM                 A   7      1.0".toList).drop 26) ∧
    (pdbRenumberCond (some ['A']) ("ATOM                 A   7      1.0".toList) = false →
      pdbLine 5 (some ['A']) ("ATOM                 A   7      1.0".toList)
        = "ATOM                 A   7      1.0".toList)) ∧
    pdbLine 5 (some ['A']) ("ATOM                 B   7      1.0".toList)
      = "ATOM                 B   7      1.0".toList :=
  ⟨C6_pdb_scope 5 (some ['A']) _ (by decide),
   (C6_pdb_scope 5 (some ['A']) ("ATOM                 B   7      1.0".toList)
      (by decide)).2 (by decide)⟩

/-- C7: the format detector equals the claim's decision cascade (content
signatures first, then PDB record prefixes on the trimmed text, then the
case-insensitive extension fallback) and always classifies as `mmcif` or
`pdb` without raising. -/
theorem C7_detect_format (text suffix : Line) :
    detect_file_format text suffix = detectFormatSpec text suffix ∧
    (detect_file_format text suffix = mmcifL ∨ detect_file_format text suffix = pdbFmtL) := by
  refine ⟨rfl, ?_⟩
  unfold detect_file_format
  split
  · exact Or.inl rfl
  · split
    · exact Or.inr rfl
    · split
      · exact Or.inl rfl
      · exact Or.inr rfl

/-- C8: a missing input path yields `notFound` independently of the text,
the requested output path and the format (so before any parsing, detection
or output resolution); an existing input with no output path resolves the
output to `parent / (stem + "_renumbered" + suffix)`. -/
theorem C8_structure_facade :
    (∀ (parent stem suffix text : Line) (outPath : Option Line) (fmt : Line),
      renumber_structure ⟨false, parent, stem, suffix⟩ text outPath fmt
        = RenumberOutcome.notFound) ∧
    (∀ (p : PathInfo) (text fmt : Line), p.pathExists = true →
      ∃ f2, renumber_structure p text none fmt
        = RenumberOutcome.written f2
            (p.parent ++ '/' :: (p.stem ++ renumberedTagL ++ p.suffix))) := by
  constructor
  · intro parent stem suffix text outPath fmt
    rfl
  · intro p text fmt hex
    refine ⟨if fmt = autoL then detect_file_format text p.suffix else fmt, ?_⟩
    unfold renumber_structure
    rw [if_neg (by rw [hex]; simp)]

/-- Witness for C8 at a concrete existing path. -/
theorem C8_structure_facade_witness :
    ∃ f2, renumber_structure ⟨true, "d".toList, "f".toList, ".pdb".toList⟩
        "ATOM".toList none autoL
      = RenumberOutcome.written f2
          ("d".toList ++ '/' :: ("f".toList ++ renumberedTagL ++ ".pdb".toList)) :=
  C8_structure_facade.2 ⟨true, "d".toList, "f".toList, ".pdb".toList⟩
    "ATOM".toList autoL rfl

/-- C9: the positional field rewriter returns the line unchanged for an
out-of-range index, and for an in-range index splices the replacement over
exactly the indexed field's span, which is a genuine span of the line
(`v = line[start:end]`, `start < end ≤ length`), everything before `start`
and after `end` copied verbatim. -/
theorem C9_replace_field (line : Line) (idx : Nat) (newV : Line) :
    ((find_field_positions line).length ≤ idx →
      replace_field_preserve_format line idx newV = line) ∧
    (∀ start stop v, (find_field_positions line).get? idx = some (start, stop, v) →
      replace_field_preserve_format line idx newV
          = line.take start ++ newV ++ line.drop stop ∧
        v = (line.drop start).take (stop - start) ∧ start < stop ∧ stop ≤ line.length) := by
  constructor
  · intro h
    unfold replace_field_preserve_format
    rw [List.get?_eq_none.mpr h]
  · intro start stop v hget
    have hmem : ((start, stop, v) : Nat × Nat × Line) ∈ find_field_positions line :=
      List.get?_mem hget
    obtain ⟨h1, h2, h3, h4⟩ :=
      findFieldsAux_spec (line.length + 1) 0 line (by omega) _ hmem
    refine ⟨?_, by simpa using h4, h2, by simpa using h3⟩
    unfold replace_field_preserve_format
    rw [hget]

/-- Witness for C9 on `"ATOM 1 CA"`: out-of-range index 9 is a no-op and
field 1 is replaced in place. -/
theorem C9_replace_field_witness :
    replace_field_preserve_format ("ATOM 1 CA".toList) 9 ("100".toList)
        = "ATOM 1 CA".toList ∧
      replace_field_preserve_format ("ATOM 1 CA".toList) 1 ("100".toList)
          = ("ATOM 1 CA".toList).take 5 ++ "100".toList ++ ("ATOM 1 CA".toList).drop 6 ∧
        "1".toList = (("ATOM 1 CA".toList).drop 5).take (6 - 5) ∧ 5 < 6 ∧
        6 ≤ ("ATOM 1 CA".toList).length :=
  ⟨(C9_replace_field ("ATOM 1 CA".toList) 9 ("100".toList)).1 (by decide),
   (C9_replace_field ("ATOM 1 CA".toList) 1 ("100".toList)).2 5 6 ("1".toList) (by decide)⟩

/-- C10 counterexample: on the input `"A\n\n"` (whose last split line is
empty) the PDB renumberer with `s = 1` outputs `"A\n"`, which ends with a
newline, contradicting the claim that the output never ends with one. -/
theorem C10_counterexample :
    renumber_pdb 1 none ('A' :: '\n' :: '\n' :: []) = 'A' :: '\n' :: [] ∧
    (('A' :: '\n' :: [] : Line)).getLast? = some '\n' :=
  ⟨by decide, by decide⟩

/-- C10 amended: both renumberers emit the per-line transforms of the
split input joined by a single `"\n"`, with exactly one output line per
input line; the output ends with a newline exactly when the input splits
into at least two lines the last of which is empty (so a single final
terminator is dropped, but doubled terminators leave a trailing newline);
CRLF is rewritten as LF. -/
theorem C10_output_join (s : Int) (chain : Option Line) (t : Line) :
    renumber_pdb s chain t = joinNL ((pySplitlines t).map (pdbLine s chain)) ∧
    renumber_mmcif s chain t = joinNL (renumber_mmcif_lines s chain (pySplitlines t)) ∧
    (renumber_mmcif_lines s chain (pySplitlines t)).length = (pySplitlines t).length ∧
    ((renumber_pdb s chain t).getLast? = some '\n' ↔
      2 ≤ (pySplitlines t).length ∧ (pySplitlines t).getLast? = some ([] : Line)) ∧
    renumber_pdb 1 none ('A' :: '\x0d' :: '\n' :: 'B' :: []) = 'A' :: '\n' :: 'B' :: [] :=
  ⟨rfl, rfl, renumber_mmcif_lines_length s chain _,
   renumber_pdb_trailing s chain t, by decide⟩

/-! ### Lemmas: the atom_site branch of the scanner -/

theorem dataLineStep_atomOnly (s : Int) (chain : Option Line) (cols pc ec mc : List Line)
    (line : Line) :
    dataLineStep s chain ⟨true, false, false, false, cols, pc, ec, mc⟩ line
      = (atomSiteStep s chain cols line).line := by
  have h : dataLineStep s chain ⟨true, false, false, false, cols, pc, ec, mc⟩ line
      = match atomSiteStep s chain cols line with
        | .emit l => l
        | .fall l1 => l1 := rfl
  rw [h]
  cases atomSiteStep s chain cols line with
  | emit l => rfl
  | fall l => rfl

theorem atomSiteStep_hetatm (s : Int) (chain : Option Line) (cols : List Line) (line : Line)
    (hmem : groupPDBL ∈ cols)
    (hval : (fieldValues line).get? (List.indexOf groupPDBL cols) = some hetatmL) :
    (atomSiteStep s chain cols line).line = line := by
  unfold atomSiteStep
  by_cases hg : rowGuard line = true
  · rw [if_pos hg]
    by_cases hlen : cols.length ≤ (fieldValues line).length
    · rw [if_pos hlen]
      unfold atomSiteTryCore
      have hci : colIndex cols groupPDBL = some (List.indexOf groupPDBL cols) := by
        unfold colIndex
        rw [if_pos hmem]
      have hpa : partAt (fieldValues line) (colIndex cols groupPDBL)
          = some (some hetatmL) := by
        rw [hci]
        show Option.map some ((fieldValues line).get? (List.indexOf groupPDBL cols))
          = some (some hetatmL)
        rw [hval]
        rfl
      simp only [hpa, if_pos rfl]
      rfl
    · rw [if_neg hlen]
      rfl
  · rw [if_neg hg]
    rfl

theorem atomSiteStep_chain_block (s : Int) (cid : Line) (cols : List Line) (line : Line)
    (hcc : partAt (fieldValues line) (colIndex cols labelAsymL) = some none ∨
      ∃ v, partAt (fieldValues line) (colIndex cols labelAsymL) = some (some v) ∧ v ≠ cid) :
    (atomSiteStep s (some cid) cols line).line = line := by
  unfold atomSiteStep
  by_cases hg : rowGuard line = true
  · rw [if_pos hg]
    by_cases hlen : cols.length ≤ (fieldValues line).length
    · rw [if_pos hlen]
      unfold atomSiteTryCore
      cases hgp : partAt (fieldValues line) (colIndex cols groupPDBL) with
      | none => rfl
      | some recTy =>
        by_cases hrec : recTy = some hetatmL
        · simp only [if_pos hrec]
          rfl
        · simp only [if_neg hrec]
          rcases hcc with h | ⟨v, hv, hne⟩
          · simp only [h]
            have hfalse : (Option.isNone (some cid)
                || ((none : Option Line) == some cid)) = false := rfl
            simp only [hfalse]
            rfl
          · simp only [hv]
            have hfalse : (Option.isNone (some cid)
                || ((some v : Option Line) == some cid)) = false := by
              rw [show ((some v : Option Line) == some cid) = (v == cid) from rfl,
                beq_eq_false_iff_ne.mpr hne]
              rfl
            simp only [hfalse]
            rfl
    · rw [if_neg hlen]
      rfl
  · rw [if_neg hg]
    rfl

/-- C2: an `atom_site` data row whose `group_PDB` field is `HETATM` is
emitted byte-identically by the mmCIF scanner for every `startResidue` and
chain filter; the PDB transform never modifies a line beginning with
`HETATM`, and more generally only lines with literal prefixes `ATOM`, `TER`
or `ANISOU` are candidates. -/
theorem C2_hetatm_exemption :
    (∀ (s : Int) (chain : Option Line) (cols : List Line) (line : Line),
      groupPDBL ∈ cols →
      (fieldValues line).get? (List.indexOf groupPDBL cols) = some hetatmL →
      dataLineStep s chain ⟨true, false, false, false, cols, [], [], []⟩ line = line) ∧
    (∀ (s : Int) (chain : Option Line) (line rest : Line),
      line = hetatmL ++ rest → pdbLine s chain line = line) ∧
    (∀ (s : Int) (chain : Option Line) (line : Line),
      (atomTagL.isPrefixOf line || terTagL.isPrefixOf line ||
        anisouTagL.isPrefixOf line) = false →
      pdbLine s chain line = line) := by
  refine ⟨?_, ?_, ?_⟩
  · intro s chain cols line hmem hval
    rw [dataLineStep_atomOnly]
    exact atomSiteStep_hetatm s chain cols line hmem hval
  · rintro s chain line rest rfl
    have h1 : atomTagL.isPrefixOf (hetatmL ++ rest) = false := rfl
    have h2 : terTagL.isPrefixOf (hetatmL ++ rest) = false := rfl
    have h3 : anisouTagL.isPrefixOf (hetatmL ++ rest) = false := rfl
    unfold pdbLine
    exact if_neg (by simp [h1, h2, h3])
  · intro s chain line hcond
    unfold pdbLine
    exact if_neg (by simp [hcond])

/-- Witness for C2: a `HETATM` mmCIF row and a `HETATM` PDB line pass
through unchanged. -/
theorem C2_hetatm_exemption_witness :
    dataLineStep 5 (some ['A'])
        ⟨true, false, false, false, [groupPDBL, labelSeqL], [], [], []⟩
        ("HETATM 7".toList) = "HETATM 7".toList ∧
      pdbLine 5 none ("HETATM    1  O   HOH A 401      1.0".toList)
        = "HETATM    1  O   HOH A 401      1.0".toList :=
  ⟨C2_hetatm_exemption.1 5 (some ['A']) _ _ (by decide) (by decide),
   C2_hetatm_exemption.2.1 5 none _ ("    1  O   HOH A 401      1.0".toList) (by decide)⟩

/-- C3 counterexample: with schema `[group_PDB, label_seq_id]` (no
`label_asym_id`) and chain filter `A`, the numeric row `"ATOM 1"` is NOT
renumbered (`s = 5` would give `"ATOM 5"`), contradicting the claim that
the chain check is skipped and rows are still renumbered. -/
theorem C3_counterexample :
    dataLineStep 5 (some ['A'])
        ⟨true, false, false, false, [groupPDBL, labelSeqL], [], [], []⟩
        ("ATOM 1".toList) = "ATOM 1".toList ∧
      "ATOM 1".toList ≠ "ATOM 5".toList :=
  ⟨by decide, by decide⟩

/-- C3 amended: with a chain filter set, an `atom_site` row whose
`label_asym_id` differs from the filter is emitted byte-identically; and
when the schema has no `label_asym_id` column at all, the current chain is
absent and never equals the filter, so rows are NOT renumbered either. -/
theorem C3_chain_scoping (s : Int) (cid : Line) (cols : List Line) (line : Line) :
    (∀ v, labelAsymL ∈ cols →
      (fieldValues line).get? (List.indexOf labelAsymL cols) = some v → v ≠ cid →
      dataLineStep s (some cid) ⟨true, false, false, false, cols, [], [], []⟩ line = line) ∧
    (labelAsymL ∉ cols →
      dataLineStep s (some cid) ⟨true, false, false, false, cols, [], [], []⟩ line = line) := by
  constructor
  · intro v hmem hval hne
    rw [dataLineStep_atomOnly]
    refine atomSiteStep_chain_block s cid cols line (Or.inr ⟨v, ?_, hne⟩)
    rw [show colIndex cols labelAsymL = some (List.indexOf labelAsymL cols) from by
      unfold colIndex; rw [if_pos hmem]]
    show Option.map some ((fieldValues line).get? (List.indexOf labelAsymL cols))
      = some (some v)
    rw [hval]
    rfl
  · intro hmem
    rw [dataLineStep_atomOnly]
    refine atomSiteStep_chain_block s cid cols line (Or.inl ?_)
    rw [show colIndex cols labelAsymL = none from by unfold colIndex; rw [if_neg hmem]]
    rfl

/-- Witness for C3: a chain-B row under an A filter, and a filtered row
under a schema lacking `label_asym_id`, both pass through unchanged. -/
theorem C3_chain_scoping_witness :
    dataLineStep 5 (some ['A'])
        ⟨true, false, false, false, [groupPDBL, labelSeqL, labelAsymL], [], [], []⟩
        ("ATOM 1 B".toList) = "ATOM 1 B".toList ∧
      dataLineStep 5 (some ['A'])
        ⟨true, false, false, false, [groupPDBL, labelSeqL], [], [], []⟩
        ("ATOM 1".toList) = "ATOM 1".toList :=
  ⟨(C3_chain_scoping 5 ['A'] [groupPDBL, labelSeqL, labelAsymL] _).1 ['B']
      (by decide) (by decide) (by decide),
   (C3_chain_scoping 5 ['A'] [groupPDBL, labelSeqL] _).2 (by decide)⟩

theorem atomSiteStep_label_parse_fail (s : Int) (chain : Option Line) (cols : List Line)
    (line v : Line)
    (hmemL : labelSeqL ∈ cols)
    (hval : (fieldValues line).get? (List.indexOf labelSeqL cols) = some v)
    (hvdot : v ≠ dotL) (hpv : pyInt v = none) :
    (atomSiteStep s chain cols line).line = line := by
  unfold atomSiteStep
  by_cases hg : rowGuard line = true
  · rw [if_pos hg]
    by_cases hlen : cols.length ≤ (fieldValues line).length
    · rw [if_pos hlen]
      unfold atomSiteTryCore
      cases hgp : partAt (fieldValues line) (colIndex cols groupPDBL) with
      | none => rfl
      | some recTy =>
        by_cases hrec : recTy = some hetatmL
        · simp only [if_pos hrec]
          rfl
        · simp only [if_neg hrec]
          cases hca : partAt (fieldValues line) (colIndex cols labelAsymL) with
          | none => rfl
          | some curChain =>
            by_cases hcond : (chain.isNone || curChain == chain) = true
            · simp only [if_pos hcond]
              rw [show colIndex cols labelSeqL = some (List.indexOf labelSeqL cols) from by
                unfold colIndex; rw [if_pos hmemL]]
              simp only [hval, if_neg hvdot]
              rw [show shiftNumStr s v = none from by unfold shiftNumStr; rw [hpv]; rfl]
              rfl
            · simp only [if_neg hcond]
              rfl
    · rw [if_neg hlen]
      rfl
  · rw [if_neg hg]
    rfl

theorem atomSiteStep_partial (s : Int) (cols : List Line) (line v : Line) (r : Int)
    (line1 : Line)
    (hgp : groupPDBL ∉ cols)
    (hasym : labelAsymL ∉ cols)
    (hg : rowGuard line = true)
    (hlen : cols.length ≤ (fieldValues line).length)
    (hmemL : labelSeqL ∈ cols)
    (hval : (fieldValues line).get? (List.indexOf labelSeqL cols) = some v)
    (hvdot : v ≠ dotL) (hpv : pyInt v = some r)
    (hmemA : authSeqL ∈ cols)
    (hline1 : line1 = replace_field_preserve_format line (List.indexOf labelSeqL cols)
        (pyStr (r + s - 1)))
    (hfail : (fieldValues line1).get? (List.indexOf authSeqL cols) = none ∨
      ∃ w, (fieldValues line1).get? (List.indexOf authSeqL cols) = some w ∧
        w ≠ qMarkL ∧ pyInt w = none) :
    (atomSiteStep s none cols line).line = line1 := by
  unfold atomSiteStep
  rw [if_pos hg, if_pos hlen]
  unfold atomSiteTryCore
  rw [show colIndex cols groupPDBL = none from by unfold colIndex; rw [if_neg hgp]]
  show ((if (none : Option Line) = some hetatmL then RowStep.emit line else _)).line = line1
  rw [if_neg (by simp)]
  rw [show colIndex cols labelAsymL = none from by unfold colIndex; rw [if_neg hasym]]
  show ((if (Option.isNone (none : Option Line) || ((none : Option Line) == none)) = true
      then _ else RowStep.fall line) : RowStep).line = line1
  rw [if_pos (show (Option.isNone (none : Option Line)
    || ((none : Option Line) == none)) = true from rfl)]
  rw [show colIndex cols labelSeqL = some (List.indexOf labelSeqL cols) from by
    unfold colIndex; rw [if_pos hmemL]]
  simp only [hval, if_neg hvdot]
  rw [show shiftNumStr s v = some (pyStr (r + s - 1)) from by
    unfold shiftNumStr; rw [hpv]; rfl]
  show (authPhase s cols
      (replace_field_preserve_format line (List.indexOf labelSeqL cols) (pyStr (r + s - 1)))
      (fieldValues (replace_field_preserve_format line (List.indexOf labelSeqL cols)
        (pyStr (r + s - 1))))).line = line1
  rw [← hline1]
  unfold authPhase
  rw [show colIndex cols authSeqL = some (List.indexOf authSeqL cols) from by
    unfold colIndex; rw [if_pos hmemA]]
  rcases hfail with h | ⟨w, hw, hwq, hwp⟩
  · simp only [h]
    rfl
  · simp only [hw, if_neg hwq]
    rw [show shiftNumStr s w = none from by unfold shiftNumStr; rw [hwp]; rfl]
    rfl

/-- C4 counterexample: on the atom_site row `"ATOM 1 2x"` with schema
`[group_PDB, label_seq_id, auth_seq_id]` and `s = 2`, the `label_seq_id`
rewrite succeeds and then the `auth_seq_id` parse fails, so the emitted line
is `"ATOM 2 2x"` — partially rewritten, not the unmodified input the claim
requires. -/
theorem C4_counterexample :
    dataLineStep 2 none
        ⟨true, false, false, false, [groupPDBL, labelSeqL, authSeqL], [], [], []⟩
        ("ATOM 1 2x".toList) = "ATOM 2 2x".toList ∧
      "ATOM 2 2x".toList ≠ "ATOM 1 2x".toList :=
  ⟨by decide, by decide⟩

/-- C4 amended: an error during a row's transform never aborts the file
(the scanner emits exactly one line per input line); an error in the FIRST
numeric field of an atom_site row leaves the line unmodified; but an error
in a LATER field emits the line as rewritten so far — the earlier
`label_seq_id` rewrite is kept, so the emitted line can be partially
rewritten. -/
theorem C4_error_recovery :
    (∀ (s : Int) (chain : Option Line) (fuel : Nat) (st : MmState) (ls : List Line),
      ls.length ≤ fuel → (renumLoop s chain fuel st ls).length = ls.length) ∧
    (∀ (s : Int) (chain : Option Line) (cols : List Line) (line v : Line),
      labelSeqL ∈ cols →
      (fieldValues line).get? (List.indexOf labelSeqL cols) = some v →
      v ≠ dotL → pyInt v = none →
      dataLineStep s chain ⟨true, false, false, false, cols, [], [], []⟩ line = line) ∧
    (∀ (s : Int) (cols : List Line) (line v : Line) (r : Int) (line1 : Line),
      groupPDBL ∉ cols → labelAsymL ∉ cols →
      rowGuard line = true → cols.length ≤ (fieldValues line).length →
      labelSeqL ∈ cols →
      (fieldValues line).get? (List.indexOf labelSeqL cols) = some v →
      v ≠ dotL → pyInt v = some r →
      authSeqL ∈ cols →
      line1 = replace_field_preserve_format line (List.indexOf labelSeqL cols)
        (pyStr (r + s - 1)) →
      ((fieldValues line1).get? (List.indexOf authSeqL cols) = none ∨
        ∃ w, (fieldValues line1).get? (List.indexOf authSeqL cols) = some w ∧
          w ≠ qMarkL ∧ pyInt w = none) →
      dataLineStep s none ⟨true, false, false, false, cols, [], [], []⟩ line = line1) := by
  refine ⟨renumLoop_length, ?_, ?_⟩
  · intro s chain cols line v hmemL hval hvdot hpv
    rw [dataLineStep_atomOnly]
    exact atomSiteStep_label_parse_fail s chain cols line v hmemL hval hvdot hpv
  · intro s cols line v r line1 hgp hasym hg hlen hmemL hval hvdot hpv hmemA hline1 hfail
    rw [dataLineStep_atomOnly]
    exact atomSiteStep_partial s cols line v r line1 hgp hasym hg hlen hmemL hval hvdot
      hpv hmemA hline1 hfail

/-- Witness for C4 amended: a two-line document keeps its line count, a row
with an unparsable first field passes through, and a row whose second field
fails emits the first rewrite only. -/
theorem C4_error_recovery_witness :
    (renumLoop 2 none 2 initState ["#".toList, "x y".toList]).length
        = (["#".toList, "x y".toList] : List Line).length ∧
      dataLineStep 2 none ⟨true, false, false, false, [labelSeqL], [], [], []⟩
        ("abc".toList) = "abc".toList ∧
      dataLineStep 2 none ⟨true, false, false, false, [labelSeqL, authSeqL], [], [], []⟩
        ("1 2x".toList) = "2 2x".toList :=
  ⟨C4_error_recovery.1 2 none 2 initState _ (by decide),
   C4_error_recovery.2.1 2 none [labelSeqL] _ ("abc".toList) (by decide) (by decide)
     (by decide) (by decide),
   C4_error_recovery.2.2 2 [labelSeqL, authSeqL] ("1 2x".toList) ("1".toList) 1
     ("2 2x".toList) (by decide) (by decide) (by decide) (by decide) (by decide)
     (by decide) (by decide) (by decide) (by decide) (by decide)
     (Or.inr ⟨"2x".toList, by decide, by decide, by decide⟩)⟩
